import Mathlib

/-!
Verification of the ray-sampling and volumetric-integration core of the
torchngp repository.  Pure per-ray computations are embedded as functions
over `ℚ` (exact field model of the float computations) or `ℝ` (where the
exponential transmittance model is involved); batched tensors are modelled
per ray, with leading batch shapes handled separately by a shape model.
-/

namespace TorchNGP

/-! ### Stratified ray-step sampler

Embeds `sample_ray_step_stratified` (src/ngptorch/sampling.py).  Per ray
the code computes, for stratum `i` with uniform draw `u i` in `[0,1)`:
`tnear_bins i = tnear + (i / n_bins) * (tfar - tnear)` and
`ts i = tnear_bins i + ((tfar - tnear) / n_bins) * u i`. -/

def sample_ray_step_stratified (tnear tfar : ℚ) (n_bins : ℕ) (u : ℕ → ℚ)
    (i : ℕ) : ℚ :=
  (tnear + ((i : ℚ) / n_bins) * (tfar - tnear)) + ((tfar - tnear) / n_bins) * u i

/-! ### Sorted uniform samples from exponential draws

Embeds lines 199-206 of src/ngptorch/sampling.py: draw `n_samples + 1`
unit-rate exponential values `e`, cumulative-sum them and divide the first
`n_samples` partial sums by the final total. -/

def sortedUniform (e : ℕ → ℚ) (n_samples : ℕ) (i : ℕ) : ℚ :=
  (∑ j ∈ Finset.range (i + 1), e j) / (∑ j ∈ Finset.range (n_samples + 1), e j)

/-! ### Random uv pixel sampling

Embeds `generate_random_uv_samples` (src/ngptorch/sampling.py): the
normalized draw `uvn` is uniform in `[-(1 - 1e-7), 1 - 1e-7)` and mapped by
`uv = (uvn + 1) * size * 0.5 - 0.5`; in non-subpixel mode `uv` is rounded
(torch rounds half to even). -/

def uv_sample_bound : ℚ := 1 - 1 / 10000000

def uv_from_uvn (size : ℕ) (uvn : ℚ) : ℚ :=
  (uvn + 1) * (size : ℚ) * (1 / 2) - 1 / 2

def roundHalfEven (x : ℚ) : ℤ :=
  let f := ⌊x⌋
  let r := x - (f : ℚ)
  if r < 1 / 2 then f
  else if 1 / 2 < r then f + 1
  else if Even f then f else f + 1

/-! ### Informed (importance) ray-step resampler

Embeds `sample_ray_step_informed` (src/ngptorch/sampling.py) per ray over
exact rationals.  The `T` input step values and weights are indexed
`0..T-1`; the extended CDF knots carry the sentinels `-eps` and `1+eps`
paired with step positions `tnear` and `tfar`; `torch.searchsorted` with
side "right" on a sorted sequence returns the number of knots `≤ u`, and
the returned value solves the projective line equation of the located
segment with the `+eps` guard on the denominator. -/

def informed_eps : ℚ := 1 / 100000

def weight_sum (weights : ℕ → ℚ) (T : ℕ) : ℚ :=
  ∑ j ∈ Finset.range T, weights j

def informed_pmf (weights : ℕ → ℚ) (T : ℕ) (j : ℕ) : ℚ :=
  weights j / weight_sum weights T

def informed_cdf (weights : ℕ → ℚ) (T : ℕ) (i : ℕ) : ℚ :=
  if i = 0 then -informed_eps
  else if i ≤ T then ∑ j ∈ Finset.range i, informed_pmf weights T j
  else 1 + informed_eps

def informed_knot (ts : ℕ → ℚ) (tnear tfar : ℚ) (T : ℕ) (i : ℕ) : ℚ :=
  if i = 0 then tnear else if i ≤ T then ts (i - 1) else tfar

def searchsorted_right_count (f : ℕ → ℚ) (N : ℕ) (u : ℚ) : ℕ :=
  ((Finset.range N).filter (fun i => f i ≤ u)).card

/-- Line through extended knots `s+1` and `s` in projective `(t, u, 1)`
coordinates, first component: `cross((t1,c1,1),(t0,c0,1)) = c1 - c0`. -/
def line_a (weights : ℕ → ℚ) (T : ℕ) (s : ℕ) : ℚ :=
  informed_cdf weights T (s + 1) - informed_cdf weights T s

/-- Second component of the projective segment line: `t0 - t1`. -/
def line_b (ts : ℕ → ℚ) (tnear tfar : ℚ) (T : ℕ) (s : ℕ) : ℚ :=
  informed_knot ts tnear tfar T s - informed_knot ts tnear tfar T (s + 1)

/-- Third component of the projective segment line: `t1*c0 - t0*c1`. -/
def line_c (ts : ℕ → ℚ) (tnear tfar : ℚ) (weights : ℕ → ℚ) (T : ℕ)
    (s : ℕ) : ℚ :=
  informed_knot ts tnear tfar T (s + 1) * informed_cdf weights T s -
    informed_knot ts tnear tfar T s * informed_cdf weights T (s + 1)

/-- One output value of `sample_ray_step_informed` for the uniform draw
`u`: locate the CDF bin of `u` (searchsorted side "right", minus one) and
solve that segment's line `t = -(b*u + c) / (a + eps)`. -/
def sample_ray_step_informed_val (ts : ℕ → ℚ) (tnear tfar : ℚ)
    (weights : ℕ → ℚ) (T : ℕ) (u : ℚ) : ℚ :=
  -(line_b ts tnear tfar T
      (searchsorted_right_count (informed_cdf weights T) (T + 2) u - 1) * u +
    line_c ts tnear tfar weights T
      (searchsorted_right_count (informed_cdf weights T) (T + 2) u - 1)) /
  (line_a weights T
      (searchsorted_right_count (informed_cdf weights T) (T + 2) u - 1) +
    informed_eps)

/-- `sample_ray_step_informed` per ray: sample `i` of `n_samples`, with the
uniform draws produced from the exponential draws `e` by normalized
cumulative summing. -/
def sample_ray_step_informed (ts : ℕ → ℚ) (tnear tfar : ℚ)
    (weights : ℕ → ℚ) (T n_samples : ℕ) (e : ℕ → ℚ) (i : ℕ) : ℚ :=
  sample_ray_step_informed_val ts tnear tfar weights T
    (sortedUniform e n_samples i)

/-- A concrete step sequence `1, 2` (two steps) used to evaluate the
informed resampler at an input with a near-massless CDF segment. -/
def cex_ts (i : ℕ) : ℚ :=
  if i = 0 then 1 else 2

/-- Concrete weights `1 - 1e-7, 1e-7`: nonnegative with sum `1`, the
second bin carrying mass far below the `1e-5` epsilon guard. -/
def cex_weights (i : ℕ) : ℚ :=
  if i = 0 then 1 - 1 / 10000000 else if i = 1 then 1 / 10000000 else 0

/-- Concrete strictly positive exponential draws realizing the uniform
samples `1/2` and `1 - 5e-8`, the second landing in the near-massless
CDF segment. -/
def cex_expdraws (i : ℕ) : ℚ :=
  if i = 0 then 1 / 2
  else if i = 1 then 1 / 2 - 1 / 20000000
  else 1 / 20000000

/-! ### Volumetric integrator

The integrator implementation (`radiance.integrate_path`,
`functional.integrate_timesteps`, `functional.color_map`,
`functional.alpha_map`) is not under src/; only its callers
(src/torchngp/rendering.py) and its test
(src/torchngp/tests/test_radiance.py) are.  It is modelled here from the
spec (section 4.3), per ray and per color channel, over `ℝ`. -/

/-- Modelled from the spec: the per-boundary log-transmittance of the
missing integrator (`radiance.integrate_path` /
`functional.integrate_timesteps`): the running sum of
`-density·width·dnorm` for steps before boundary `i`, where `ts` holds the
`T+1` padded step positions and `width i = ts (i+1) - ts i`. -/
def localLogTransmittance (density ts : ℕ → ℝ) (dnorm : ℝ) (i : ℕ) : ℝ :=
  -(∑ j ∈ Finset.range i, density j * (ts (j + 1) - ts j) * dnorm)

/-- Modelled from the spec: the integration weight of step `i` of the
missing integrator: its opacity `1 - exp(-density·width·dnorm)` times the
transmittance accumulated strictly before it,
`exp(prev_log_transmittance + running sum)`. -/
noncomputable def integrationWeight (prev_log_transmittance : ℝ)
    (density ts : ℕ → ℝ) (dnorm : ℝ) (i : ℕ) : ℝ :=
  Real.exp (prev_log_transmittance + localLogTransmittance density ts dnorm i) *
    (1 - Real.exp (-(density i * (ts (i + 1) - ts i) * dnorm)))

/-- Modelled from the spec: the missing `radiance.integrate_path`, which
returns the per-step accumulated colors (running weighted color sums) and
the per-boundary log-transmittance, the latter not including
`prev_log_transmittance` (the chunked test re-adds it). -/
noncomputable def integrate_path (color density ts : ℕ → ℝ)
    (dnorm prev_log_transmittance : ℝ) : (ℕ → ℝ) × (ℕ → ℝ) :=
  (fun i => ∑ j ∈ Finset.range (i + 1),
      color j * integrationWeight prev_log_transmittance density ts dnorm j,
    localLogTransmittance density ts dnorm)

/-- Modelled from the spec: the missing `functional.integrate_timesteps`
as called by `RadianceRenderer.trace_uv` (no carried state, so
`prev_log_transmittance = 0`). -/
noncomputable def integrate_timesteps (density ts : ℕ → ℝ) (dnorm : ℝ) :
    ℕ → ℝ :=
  integrationWeight 0 density ts dnorm

/-- Modelled from the spec: the missing `functional.alpha_map`, the sum of
the `T` integration weights clamped to `[0,1]`. -/
noncomputable def alpha_map (w : ℕ → ℝ) (T : ℕ) : ℝ :=
  min 1 (max 0 (∑ i ∈ Finset.range T, w i))

/-- Modelled from the spec: the missing `functional.color_map`, the
weighted sum (per channel) of the per-step colors. -/
noncomputable def color_map (color w : ℕ → ℝ) (T : ℕ) : ℝ :=
  ∑ i ∈ Finset.range T, color i * w i

/-! ### Rays, AABB clipping and render orchestration

`RadianceRenderer.trace_uv` / `trace_maps` (src/torchngp/rendering.py) are
embedded per ray over `ℚ`: a ray bundle is a list of rays, and the
composite of step sampling, field query and integration applied to one
active (clipped) ray — whose components live outside src/ — is opaque.
`trace_uv`/`trace_maps` below take it as a per-ray function `render`,
which captures the compaction/scatter/reassembly bookkeeping; the
dependence of the stratified draws on the global RNG stream position —
`sample_ray_step_stratified` fills its `(n_bins, batch..., 1)` tensor in
one row-major (bin-major) pass over the compacted active batch — is
modelled separately by `trace_uv_stream`/`trace_maps_stream`. -/

structure Ray where
  o : Fin 3 → ℚ
  d : Fin 3 → ℚ
  tnear : ℚ
  tfar : ℚ

structure AABB where
  lo : Fin 3 → ℚ
  hi : Fin 3 → ℚ

/-- Modelled from the spec: one axis of the slab test of the missing
`geometric.RayBundle.intersect_aabb`: for nonzero direction clip the
current interval by the axis entry/exit parameters; a zero direction
component gives no constraint when the origin lies inside the slab and an
empty interval otherwise. -/
def clip_axis (cur : ℚ × ℚ) (o d lo hi : ℚ) : ℚ × ℚ :=
  if d = 0 then
    (if lo ≤ o ∧ o ≤ hi then cur else (cur.1, cur.1))
  else
    (max cur.1 (min ((lo - o) / d) ((hi - o) / d)),
      min cur.2 (max ((lo - o) / d) ((hi - o) / d)))

/-- Modelled from the spec: the missing
`geometric.RayBundle.intersect_aabb`, folding the slab test over the three
axes starting from the ray's own `[tnear, tfar)`. -/
def intersect_aabb (r : Ray) (box : AABB) : Ray :=
  let p0 := clip_axis (r.tnear, r.tfar) (r.o 0) (r.d 0) (box.lo 0) (box.hi 0)
  let p1 := clip_axis p0 (r.o 1) (r.d 1) (box.lo 1) (box.hi 1)
  let p2 := clip_axis p1 (r.o 2) (r.d 2) (box.lo 2) (box.hi 2)
  { r with tnear := p2.1, tfar := p2.2 }

/-- Modelled from the spec: the missing `geometric.RayBundle.active_mask`:
a ray is active iff its clipped interval is non-empty. -/
def active_mask (r : Ray) : Bool :=
  decide (r.tnear < r.tfar)

/-- Scatter of compacted per-active-ray results back to the full batch:
positions whose mask is false keep the preallocated default `0`
(`result[active_mask] = ...` on a zero-initialized buffer). -/
def scatter_active : List Bool → List ℚ → List ℚ
  | [], _ => []
  | true :: m, v :: vs => v :: scatter_active m vs
  | true :: m, [] => 0 :: scatter_active m []
  | false :: m, vs => 0 :: scatter_active m vs

/-- `RadianceRenderer.trace_uv` per output channel: allocate zero defaults,
clip all rays against the volume box, compact to the active rays, apply the
per-ray sampling/field-query/integration composite `render` to those only,
and scatter the results back at the original positions. -/
def trace_uv (render : Ray → ℚ) (box : AABB) (rays : List Ray) : List ℚ :=
  scatter_active ((rays.map (fun r => intersect_aabb r box)).map active_mask)
    (((rays.map (fun r => intersect_aabb r box)).filter
        (fun r => active_mask r)).map render)

/-- Row-major chunking of a pixel/ray list into runs of `m + 1`
(`generate_sequential_uv_samples` splitting the uv grid). -/
def chunk_list (m : ℕ) (l : List α) : List (List α) :=
  match l with
  | [] => []
  | x :: xs => (x :: xs).take (m + 1) :: chunk_list m ((x :: xs).drop (m + 1))
termination_by l.length
decreasing_by
  simp [List.length_drop]
  omega

/-- `RadianceRenderer.trace_maps` per output channel: trace fixed-size
sequential ray chunks through `trace_uv` and concatenate the per-chunk
results in order. -/
def trace_maps (render : Ray → ℚ) (box : AABB) (rays : List Ray)
    (m : ℕ) : List ℚ :=
  ((chunk_list m rays).map (trace_uv render box)).flatten

/-- A unit box at the origin, used as a concrete volume bound. -/
def unit_box : AABB :=
  { lo := fun _ => 0, hi := fun _ => 1 }

/-- A ray that misses `unit_box`: zero direction with origin outside the
slabs, so the slab test empties its interval. -/
def outside_ray : Ray :=
  { o := fun _ => 2, d := fun _ => 0, tnear := 0, tfar := 1 }

/-- A ray through `unit_box`: origin at its center, direction along `x`,
so its clipped interval `(0, 1/2)` is non-empty and it is active. -/
def inside_ray : Ray :=
  { o := fun _ => 1 / 2, d := fun i => if i = 0 then 1 else 0,
    tnear := 0, tfar := 1 }

/-- The uniform draws handed to compacted active ray `j` of a batch of `A`
rays: `sample_ray_step_stratified` fills its `(n_bins, A, 1)` tensor in
one row-major pass from the global RNG stream `s` starting at position
`offset`, so bin `b` of ray `j` reads stream position `offset + b*A + j`
(bin-major). -/
def stratified_draw (s : ℕ → ℚ) (offset A j : ℕ) : ℕ → ℚ :=
  fun b => s (offset + b * A + j)

/-- Apply the per-ray sampling/field-query/integration composite
`renderc` to the compacted active rays in order, handing ray `j` its
stream draws. -/
def render_actives (renderc : Ray → (ℕ → ℚ) → ℚ) (s : ℕ → ℚ)
    (offset A : ℕ) : ℕ → List Ray → List ℚ
  | _, [] => []
  | j, r :: rs =>
    renderc r (stratified_draw s offset A j) ::
      render_actives renderc s offset A (j + 1) rs

/-- `RadianceRenderer.trace_uv` with the global RNG stream made explicit:
the draws a ray receives depend on its index within the compacted active
batch and on the current stream offset, not on the ray alone. -/
def trace_uv_stream (renderc : Ray → (ℕ → ℚ) → ℚ) (box : AABB)
    (s : ℕ → ℚ) (offset : ℕ) (rays : List Ray) : List ℚ :=
  scatter_active ((rays.map (fun r => intersect_aabb r box)).map active_mask)
    (render_actives renderc s offset
      ((rays.map (fun r => intersect_aabb r box)).filter
        (fun r => active_mask r)).length 0
      ((rays.map (fun r => intersect_aabb r box)).filter
        (fun r => active_mask r)))

/-- RNG stream positions consumed by one `trace_uv` call: `n_bins` draws
per active ray (none when the active set is empty, since the sampler is
then never invoked). -/
def rng_consumed (box : AABB) (n_bins : ℕ) (rays : List Ray) : ℕ :=
  n_bins * ((rays.map (fun r => intersect_aabb r box)).filter
    (fun r => active_mask r)).length

/-- Trace a list of sequential ray chunks with the RNG stream offset
threaded from chunk to chunk. -/
def trace_chunks_stream (renderc : Ray → (ℕ → ℚ) → ℚ) (box : AABB)
    (n_bins : ℕ) (s : ℕ → ℚ) : ℕ → List (List Ray) → List ℚ
  | _, [] => []
  | offset, c :: cs =>
    trace_uv_stream renderc box s offset c ++
      trace_chunks_stream renderc box n_bins s
        (offset + rng_consumed box n_bins c) cs

/-- `RadianceRenderer.trace_maps` with the global RNG stream explicit:
chunk the rays row-major and trace each chunk with the stream carried
forward.  A fixed seed means both the chunked and the unchunked run read
the same stream from the same starting offset. -/
def trace_maps_stream (renderc : Ray → (ℕ → ℚ) → ℚ) (box : AABB)
    (n_bins : ℕ) (s : ℕ → ℚ) (offset : ℕ) (rays : List Ray) (m : ℕ) :
    List ℚ :=
  trace_chunks_stream renderc box n_bins s offset (chunk_list m rays)

/-! ### Shape-level model of `sample_ray_step_informed`

The batched tensor bookkeeping of `sample_ray_step_informed` is modelled
at the level of shapes (lists of dimension sizes).  The function performs,
in order: `squeeze(-1)` and `movedim(0, -1)` on `ts` and `weights`;
elementwise pmf/cumsum (shape preserving); `torch.cat` of the CDF
sentinels (always consistent, by construction); `torch.cat((tnear, ts,
tfar), -1)`, which requires all non-last dimensions to agree;
`torch.stack((ts, cdf, ones), -1)`, which requires the full shapes of
`ts` and `cdf` to agree; then `cross`, `searchsorted` and `gather`, whose
shape constraints hold by construction once the two earlier checks have
passed.  A failed check is a raised `RuntimeError`, modelled as `none`. -/

def squeezeLastShape (s : List ℕ) : List ℕ :=
  if s.getLast? = some 1 then s.dropLast else s

def moveFirstToLastShape (s : List ℕ) : List ℕ :=
  s.tail ++ [s.headD 0]

/-- Output shape of `sample_ray_step_informed` on inputs of the given
shapes: `none` models the `RuntimeError` raised by `torch.cat` (non-last
dimensions of `tnear`/`ts`/`tfar` disagree) or by `torch.stack` (shapes of
the step row and CDF row disagree); otherwise the result has shape
`(n_samples, batch..., 1)`. -/
def sample_ray_step_informed_shapes (ts_s tn_s tf_s w_s : List ℕ)
    (n_samples : ℕ) : Option (List ℕ) :=
  if tn_s.dropLast = (moveFirstToLastShape (squeezeLastShape ts_s)).dropLast ∧
      tf_s.dropLast = (moveFirstToLastShape (squeezeLastShape ts_s)).dropLast
    then
    if (moveFirstToLastShape (squeezeLastShape w_s)).dropLast ++
        [(moveFirstToLastShape (squeezeLastShape w_s)).getLastD 0 + 2] =
        (moveFirstToLastShape (squeezeLastShape ts_s)).dropLast ++
        [tn_s.getLastD 0 +
          (moveFirstToLastShape (squeezeLastShape ts_s)).getLastD 0 +
          tf_s.getLastD 0]
      then
      some (n_samples ::
        ((moveFirstToLastShape (squeezeLastShape ts_s)).dropLast ++ [1]))
    else none
  else none

/-! ## Theorems -/

/-- Helper: adding strictly positive terms strictly grows a range sum. -/
theorem sum_range_lt_of_pos {e : ℕ → ℚ} (he : ∀ j, 0 < e j) {a b : ℕ}
    (hab : a < b) :
    (∑ j ∈ Finset.range a, e j) < ∑ j ∈ Finset.range b, e j := by
  apply Finset.sum_lt_sum_of_subset
    (Finset.range_subset.mpr (le_of_lt hab))
    (Finset.mem_range.mpr hab) (by simp) (he a)
  intro j _ _
  exact le_of_lt (he j)

/-- Claim C2: for every ray with `tnear < tfar` and `n_bins ≥ 1`, each
stratified sample `i` equals `tnear + (i + u)/n_bins * (tfar - tnear)` with
`u ∈ [0,1)` the draw of stratum `i`; the samples are strictly increasing in
the stratum index and lie within `[tnear, tfar]`; and when `tnear = tfar`
all samples coincide at that value. -/
theorem stratified_sorted_and_bounded (tnear tfar : ℚ) (n_bins : ℕ)
    (u : ℕ → ℚ) (hn : 0 < n_bins) (hu : ∀ i, 0 ≤ u i ∧ u i < 1) :
    (∀ i, sample_ray_step_stratified tnear tfar n_bins u i =
      tnear + (((i : ℚ) + u i) / n_bins) * (tfar - tnear)) ∧
    (tnear < tfar →
      (∀ i j, i < j → j < n_bins →
        sample_ray_step_stratified tnear tfar n_bins u i <
          sample_ray_step_stratified tnear tfar n_bins u j) ∧
      (∀ i, i < n_bins →
        tnear ≤ sample_ray_step_stratified tnear tfar n_bins u i ∧
          sample_ray_step_stratified tnear tfar n_bins u i ≤ tfar)) ∧
    (tnear = tfar → ∀ i, sample_ray_step_stratified tnear tfar n_bins u i = tnear) := by
  have hnq : (0 : ℚ) < (n_bins : ℚ) := by exact_mod_cast hn
  have e1 : ∀ i, sample_ray_step_stratified tnear tfar n_bins u i =
      tnear + (((i : ℚ) + u i) * (tfar - tnear)) / n_bins := by
    intro i
    unfold sample_ray_step_stratified
    field_simp
    ring
  refine ⟨?_, ?_, ?_⟩
  · intro i
    rw [e1 i, div_mul_eq_mul_div]
  · intro hlt
    have htd : (0 : ℚ) < tfar - tnear := by linarith
    constructor
    · intro i j hij hjn
      rw [e1 i, e1 j]
      have hiq : (i : ℚ) + 1 ≤ (j : ℚ) := by exact_mod_cast hij
      have hui := hu i
      have huj := hu j
      have key : ((i : ℚ) + u i) * (tfar - tnear) <
          ((j : ℚ) + u j) * (tfar - tnear) := by
        nlinarith [hui.1, hui.2, huj.1, huj.2]
      gcongr
    · intro i hin
      rw [e1 i]
      have hui := hu i
      have hiq : (i : ℚ) ≤ (n_bins : ℚ) - 1 := by
        have : (i : ℚ) + 1 ≤ (n_bins : ℚ) := by exact_mod_cast hin
        linarith
      constructor
      · have h1 : 0 ≤ (((i : ℚ) + u i) * (tfar - tnear)) / n_bins := by
          apply div_nonneg _ (le_of_lt hnq)
          have := hui.1
          positivity
        linarith
      · have h2 : (((i : ℚ) + u i) * (tfar - tnear)) / n_bins ≤ tfar - tnear := by
          rw [div_le_iff hnq]
          nlinarith [hui.2]
        linarith
  · intro heq i
    rw [e1 i, heq]
    simp

/-- Closed witness for `stratified_sorted_and_bounded` at `tnear = 0`,
`tfar = 1`, `n_bins = 2`, `u = 1/2` everywhere. -/
theorem stratified_sorted_and_bounded_witness :
    (0 < 2 ∧ (∀ i : ℕ, (0 : ℚ) ≤ 1 / 2 ∧ (1 : ℚ) / 2 < 1)) ∧
    ((0 : ℚ) < 1 →
      (∀ i j, i < j → j < 2 →
        sample_ray_step_stratified 0 1 2 (fun _ => 1 / 2) i <
          sample_ray_step_stratified 0 1 2 (fun _ => 1 / 2) j)) := by
  refine ⟨⟨by norm_num, fun _ => by norm_num⟩, ?_⟩
  intro h
  exact ((stratified_sorted_and_bounded 0 1 2 (fun _ => 1 / 2) (by norm_num)
    (fun _ => by norm_num)).2.1 h).1

/-- Claim C8: the `n_samples` values obtained by cumulatively summing
`n_samples + 1` strictly positive (unit-rate exponential) draws and dividing
the first `n_samples` partial sums by the final total are sorted strictly
ascending and lie in `[0,1)`, with no sort applied. -/
theorem sorted_uniform_ascending_unit (e : ℕ → ℚ) (n_samples : ℕ)
    (he : ∀ j, 0 < e j) :
    ∀ i, i < n_samples →
      (0 ≤ sortedUniform e n_samples i ∧ sortedUniform e n_samples i < 1) ∧
      (i + 1 < n_samples →
        sortedUniform e n_samples i < sortedUniform e n_samples (i + 1)) := by
  intro i hi
  have hden : (0 : ℚ) < ∑ j ∈ Finset.range (n_samples + 1), e j :=
    Finset.sum_pos (fun j _ => he j) (by simp)
  have hnum : (0 : ℚ) ≤ ∑ j ∈ Finset.range (i + 1), e j :=
    Finset.sum_nonneg (fun j _ => le_of_lt (he j))
  refine ⟨⟨div_nonneg hnum (le_of_lt hden), ?_⟩, ?_⟩
  · unfold sortedUniform
    rw [div_lt_one hden]
    exact sum_range_lt_of_pos he (by omega)
  · intro hi1
    unfold sortedUniform
    rw [div_lt_div_iff_of_pos_right hden]
    exact sum_range_lt_of_pos he (by omega)

/-- Closed witness for `sorted_uniform_ascending_unit` with unit draws and
`n_samples = 2`, `i = 0`. -/
theorem sorted_uniform_ascending_unit_witness :
    (∀ j : ℕ, (0 : ℚ) < 1) ∧ (0 < 2 ∧
      (0 ≤ sortedUniform (fun _ => (1 : ℚ)) 2 0 ∧
        sortedUniform (fun _ => (1 : ℚ)) 2 0 < 1)) :=
  ⟨fun _ => by norm_num, by norm_num,
    ((sorted_uniform_ascending_unit (fun _ => (1 : ℚ)) 2
      (fun _ => by norm_num) 0 (by norm_num)).1)⟩

/-- Helper: a rational strictly inside `(-1/2, m - 1/2)` rounds (half to
even, as torch does) to an integer in `[0, m-1]`. -/
theorem roundHalfEven_mem_range {x : ℚ} {m : ℕ} (hm : 1 ≤ m)
    (h1 : -(1 / 2) < x) (h2 : x < (m : ℚ) - 1 / 2) :
    0 ≤ roundHalfEven x ∧ roundHalfEven x ≤ (m : ℤ) - 1 := by
  have hfl : (⌊x⌋ : ℚ) ≤ x := Int.floor_le x
  have hfu : x < (⌊x⌋ : ℚ) + 1 := Int.lt_floor_add_one x
  have hlo : (-1 : ℤ) ≤ ⌊x⌋ := by
    rw [Int.le_floor]
    push_cast
    linarith
  have hhi : ⌊x⌋ < (m : ℤ) := by
    rw [Int.floor_lt]
    push_cast
    linarith
  unfold roundHalfEven
  simp only []
  split_ifs with hr1 hr2 hev
  · -- round down to ⌊x⌋: x - ⌊x⌋ < 1/2 rules out ⌊x⌋ = -1
    constructor
    · by_contra hneg
      push_neg at hneg
      have : ⌊x⌋ = -1 := by omega
      rw [this] at hr1
      push_cast at hr1
      linarith
    · omega
  · -- round up to ⌊x⌋ + 1: x - ⌊x⌋ > 1/2 rules out ⌊x⌋ = m - 1
    constructor
    · omega
    · by_contra hbig
      push_neg at hbig
      have : ⌊x⌋ = (m : ℤ) - 1 := by omega
      rw [this] at hr2
      push_cast at hr2
      linarith
  · -- tie at exactly 1/2 with even floor: keep floor; -1 is odd so floor ≥ 0
    constructor
    · by_contra hneg
      push_neg at hneg
      have hfeq : ⌊x⌋ = -1 := by omega
      rw [hfeq] at hev
      have hcontr := Int.even_iff.mp hev
      norm_num at hcontr
    · omega
  · -- tie at exactly 1/2 with odd floor: round up; m - 1 tie cannot occur
    constructor
    · omega
    · have hr3 : x - (⌊x⌋ : ℚ) = 1 / 2 := by linarith
      by_contra hbig
      push_neg at hbig
      have hfeq : ⌊x⌋ = (m : ℤ) - 1 := by omega
      rw [hfeq] at hr3
      push_cast at hr3
      linarith

/-- Claim C10: every coordinate produced by `generate_random_uv_samples`
lies inside the valid image area: with the normalized draw `uvn` in
`[-(1 - 1e-7), 1 - 1e-7)` and image size `≥ 1`, the subpixel coordinate
`uv` lies strictly within `(-0.5, size - 0.5)`, and its half-to-even
rounding is an integer in `[0, size - 1]`. -/
theorem random_uv_inside_image (size : ℕ) (uvn : ℚ) (hsize : 1 ≤ size)
    (h1 : -uv_sample_bound ≤ uvn) (h2 : uvn < uv_sample_bound) :
    (-(1 / 2) < uv_from_uvn size uvn ∧
      uv_from_uvn size uvn < (size : ℚ) - 1 / 2) ∧
    (0 ≤ roundHalfEven (uv_from_uvn size uvn) ∧
      roundHalfEven (uv_from_uvn size uvn) ≤ (size : ℤ) - 1) := by
  have hsq : (1 : ℚ) ≤ (size : ℚ) := by exact_mod_cast hsize
  unfold uv_sample_bound at h1 h2
  have hb : (-(1 / 2) : ℚ) < uv_from_uvn size uvn ∧
      uv_from_uvn size uvn < (size : ℚ) - 1 / 2 := by
    unfold uv_from_uvn
    constructor
    · nlinarith
    · nlinarith
  exact ⟨hb, roundHalfEven_mem_range hsize hb.1 hb.2⟩

/-- Closed witness for `random_uv_inside_image` at `size = 4`, `uvn = 0`. -/
theorem random_uv_inside_image_witness :
    (1 ≤ 4 ∧ -uv_sample_bound ≤ (0 : ℚ) ∧ (0 : ℚ) < uv_sample_bound) ∧
    (0 ≤ roundHalfEven (uv_from_uvn 4 0) ∧
      roundHalfEven (uv_from_uvn 4 0) ≤ (4 : ℤ) - 1) :=
  ⟨⟨by norm_num, by norm_num [uv_sample_bound], by norm_num [uv_sample_bound]⟩,
    (random_uv_inside_image 4 0 (by norm_num)
      (by norm_num [uv_sample_bound]) (by norm_num [uv_sample_bound])).2⟩

/-- Helper: log-transmittance over `[0, k+j)` splits as the part over
`[0,k)` plus the part of the index-shifted suffix over `[0,j)`. -/
theorem sum_range_add_split (f : ℕ → ℝ) (k n : ℕ) :
    ∑ j ∈ Finset.range (k + n), f j =
      (∑ j ∈ Finset.range k, f j) + ∑ m ∈ Finset.range n, f (k + m) := by
  induction n with
  | zero => simp
  | succ n ih =>
    rw [show k + (n + 1) = (k + n) + 1 by omega, Finset.sum_range_succ,
      Finset.sum_range_succ, ih]
    ring

/-- Helper: log-transmittance over `[0, k+j)` splits as the part over
`[0,k)` plus the part of the index-shifted suffix over `[0,j)`. -/
theorem localLogTransmittance_shift (density ts : ℕ → ℝ) (dnorm : ℝ)
    (k j : ℕ) :
    localLogTransmittance (fun m => density (k + m)) (fun m => ts (k + m))
        dnorm j + localLogTransmittance density ts dnorm k =
      localLogTransmittance density ts dnorm (k + j) := by
  unfold localLogTransmittance
  show -(∑ m ∈ Finset.range j,
      (fun t => density t * (ts (t + 1) - ts t) * dnorm) (k + m)) +
    -(∑ t ∈ Finset.range k,
      (fun t => density t * (ts (t + 1) - ts t) * dnorm) t) =
    -(∑ t ∈ Finset.range (k + j),
      (fun t => density t * (ts (t + 1) - ts t) * dnorm) t)
  rw [sum_range_add_split (fun t => density t * (ts (t + 1) - ts t) * dnorm)
    k j]
  ring

/-- Helper: a chunked integration weight, seeded with the log-transmittance
accumulated over the first `k` steps, equals the corresponding full-range
weight. -/
theorem integrationWeight_shift (density ts : ℕ → ℝ) (dnorm : ℝ) (k m : ℕ) :
    integrationWeight (localLogTransmittance density ts dnorm k)
        (fun n => density (k + n)) (fun n => ts (k + n)) dnorm m =
      integrationWeight 0 density ts dnorm (k + m) := by
  unfold integrationWeight
  rw [zero_add]
  have harg : localLogTransmittance density ts dnorm k +
      localLogTransmittance (fun n => density (k + n))
        (fun n => ts (k + n)) dnorm m =
      localLogTransmittance density ts dnorm (k + m) := by
    rw [add_comm]
    exact localLogTransmittance_shift density ts dnorm k m
  rw [harg]
  rfl

/-- Claim C1: chunked integration composes: for `T ≥ 2` and a split point
`0 < k < T`, integrating the last `T - k` steps seeded with the log-
transmittance accumulated over the first `k` steps — offsetting the
returned log-transmittances by that carried value and the returned partial
colors by the first chunk's final accumulated color — reproduces the
single-call integration over all `T` steps exactly (the real-valued model
of the float computation, hence equality within float tolerance). -/
theorem integrate_path_in_parts (color density ts : ℕ → ℝ) (dnorm : ℝ)
    (T k : ℕ) (hk : 0 < k) (hkT : k < T) :
    (∀ j, j ≤ T - k →
      (integrate_path (fun m => color (k + m)) (fun m => density (k + m))
          (fun m => ts (k + m)) dnorm
          ((integrate_path color density ts dnorm 0).2 k)).2 j +
        (integrate_path color density ts dnorm 0).2 k =
      (integrate_path color density ts dnorm 0).2 (k + j)) ∧
    (∀ i, i < T - k →
      (integrate_path (fun m => color (k + m)) (fun m => density (k + m))
          (fun m => ts (k + m)) dnorm
          ((integrate_path color density ts dnorm 0).2 k)).1 i +
        (integrate_path color density ts dnorm 0).1 (k - 1) =
      (integrate_path color density ts dnorm 0).1 (k + i)) := by
  constructor
  · intro j _
    exact localLogTransmittance_shift density ts dnorm k j
  · intro i _
    show (∑ m ∈ Finset.range (i + 1), color (k + m) *
        integrationWeight (localLogTransmittance density ts dnorm k)
          (fun n => density (k + n)) (fun n => ts (k + n)) dnorm m) +
      (∑ j ∈ Finset.range (k - 1 + 1), color j *
        integrationWeight 0 density ts dnorm j) =
      ∑ j ∈ Finset.range (k + i + 1), color j *
        integrationWeight 0 density ts dnorm j
    have hk1 : k - 1 + 1 = k := Nat.succ_pred_eq_of_pos hk
    have hki : k + i + 1 = k + (i + 1) := rfl
    rw [hk1, hki, sum_range_add_split (fun j => color j *
      integrationWeight 0 density ts dnorm j) k (i + 1)]
    have hw : ∀ m, color (k + m) *
        integrationWeight (localLogTransmittance density ts dnorm k)
          (fun n => density (k + n)) (fun n => ts (k + n)) dnorm m =
        color (k + m) * integrationWeight 0 density ts dnorm (k + m) := by
      intro m
      rw [integrationWeight_shift]
    rw [Finset.sum_congr rfl (fun m _ => hw m)]
    ring

/-- Closed witness for `integrate_path_in_parts` at `T = 2`, `k = 1` with
unit color/density, `ts n = n` and `dnorm = 1`. -/
theorem integrate_path_in_parts_witness :
    0 < 1 ∧ 1 < 2 ∧
    ((∀ j, j ≤ 2 - 1 →
      (integrate_path (fun m => (fun _ : ℕ => (1 : ℝ)) (1 + m))
          (fun m => (fun _ : ℕ => (1 : ℝ)) (1 + m))
          (fun m => (fun n : ℕ => (n : ℝ)) (1 + m)) 1
          ((integrate_path (fun _ => 1) (fun _ => 1) (fun n => (n : ℝ)) 1
            0).2 1)).2 j +
        (integrate_path (fun _ => 1) (fun _ => 1) (fun n => (n : ℝ)) 1
          0).2 1 =
      (integrate_path (fun _ => 1) (fun _ => 1) (fun n => (n : ℝ)) 1 0).2
        (1 + j)) ∧
    (∀ i, i < 2 - 1 →
      (integrate_path (fun m => (fun _ : ℕ => (1 : ℝ)) (1 + m))
          (fun m => (fun _ : ℕ => (1 : ℝ)) (1 + m))
          (fun m => (fun n : ℕ => (n : ℝ)) (1 + m)) 1
          ((integrate_path (fun _ => 1) (fun _ => 1) (fun n => (n : ℝ)) 1
            0).2 1)).1 i +
        (integrate_path (fun _ => 1) (fun _ => 1) (fun n => (n : ℝ)) 1
          0).1 (1 - 1) =
      (integrate_path (fun _ => 1) (fun _ => 1) (fun n => (n : ℝ)) 1 0).1
        (1 + i))) :=
  ⟨by norm_num, by norm_num,
    integrate_path_in_parts (fun _ => 1) (fun _ => 1) (fun n => (n : ℝ)) 1
      2 1 (by norm_num) (by norm_num)⟩

/-- Helper: the weights telescope, so their sum over the `T` steps is one
minus the final transmittance. -/
theorem sum_integrationWeight (density ts : ℕ → ℝ) (dnorm : ℝ) (T : ℕ) :
    ∑ i ∈ Finset.range T, integrationWeight 0 density ts dnorm i =
      1 - Real.exp (localLogTransmittance density ts dnorm T) := by
  have hterm : ∀ i, integrationWeight 0 density ts dnorm i =
      Real.exp (localLogTransmittance density ts dnorm i) -
        Real.exp (localLogTransmittance density ts dnorm (i + 1)) := by
    intro i
    unfold integrationWeight
    rw [zero_add, mul_sub, mul_one, ← Real.exp_add]
    have : localLogTransmittance density ts dnorm i +
        -(density i * (ts (i + 1) - ts i) * dnorm) =
        localLogTransmittance density ts dnorm (i + 1) := by
      unfold localLogTransmittance
      rw [Finset.sum_range_succ]
      ring
    rw [this]
  rw [Finset.sum_congr rfl (fun i _ => hterm i),
    Finset.sum_range_sub' (fun i =>
      Real.exp (localLogTransmittance density ts dnorm i)) T]
  have h0 : localLogTransmittance density ts dnorm 0 = 0 := by
    simp [localLogTransmittance]
  rw [h0, Real.exp_zero]

/-- Claim C5: for nonnegative densities, sorted padded step positions and
nonnegative direction norm, the sum of the integration weights lies in
`[0,1]`, so `alpha_map` (its clamp to `[0,1]`) equals it and lies in
`[0,1]`; and when the density is zero at every step, every weight is zero,
so `alpha_map = 0` and `color_map = 0` (a finite value, not NaN). -/
theorem alpha_color_map_conservation (color density ts : ℕ → ℝ)
    (dnorm : ℝ) (T : ℕ) (hσ : ∀ i, 0 ≤ density i)
    (hts : ∀ i, ts i ≤ ts (i + 1)) (hd : 0 ≤ dnorm) :
    (0 ≤ ∑ i ∈ Finset.range T, integrate_timesteps density ts dnorm i ∧
      ∑ i ∈ Finset.range T, integrate_timesteps density ts dnorm i ≤ 1) ∧
    alpha_map (integrate_timesteps density ts dnorm) T =
      ∑ i ∈ Finset.range T, integrate_timesteps density ts dnorm i ∧
    (0 ≤ alpha_map (integrate_timesteps density ts dnorm) T ∧
      alpha_map (integrate_timesteps density ts dnorm) T ≤ 1) ∧
    ((∀ i, density i = 0) →
      alpha_map (integrate_timesteps density ts dnorm) T = 0 ∧
      color_map color (integrate_timesteps density ts dnorm) T = 0) := by
  have hsum : ∑ i ∈ Finset.range T, integrate_timesteps density ts dnorm i =
      1 - Real.exp (localLogTransmittance density ts dnorm T) := by
    unfold integrate_timesteps
    exact sum_integrationWeight density ts dnorm T
  have hLle : localLogTransmittance density ts dnorm T ≤ 0 := by
    unfold localLogTransmittance
    rw [neg_nonpos]
    apply Finset.sum_nonneg
    intro j _
    have := hσ j
    have := hts j
    have h1 : 0 ≤ ts (j + 1) - ts j := by linarith [hts j]
    positivity
  have hexp1 : Real.exp (localLogTransmittance density ts dnorm T) ≤ 1 := by
    calc Real.exp (localLogTransmittance density ts dnorm T) ≤ Real.exp 0 :=
        Real.exp_le_exp.mpr hLle
    _ = 1 := Real.exp_zero
  have hexp0 : 0 < Real.exp (localLogTransmittance density ts dnorm T) :=
    Real.exp_pos _
  have hbounds : 0 ≤ ∑ i ∈ Finset.range T,
      integrate_timesteps density ts dnorm i ∧
      ∑ i ∈ Finset.range T, integrate_timesteps density ts dnorm i ≤ 1 := by
    rw [hsum]
    constructor <;> linarith
  have halpha : alpha_map (integrate_timesteps density ts dnorm) T =
      ∑ i ∈ Finset.range T, integrate_timesteps density ts dnorm i := by
    unfold alpha_map
    rw [max_eq_right hbounds.1, min_eq_right hbounds.2]
  refine ⟨hbounds, halpha, ?_, ?_⟩
  · rw [halpha]
    exact hbounds
  · intro hzero
    have hw : ∀ i, integrate_timesteps density ts dnorm i = 0 := by
      intro i
      unfold integrate_timesteps integrationWeight
      rw [hzero i]
      simp
    constructor
    · rw [halpha]
      rw [Finset.sum_congr rfl (fun i _ => hw i)]
      simp
    · unfold color_map
      rw [Finset.sum_congr rfl (fun i _ => by rw [hw i, mul_zero])]
      simp

/-- Closed witness for `alpha_color_map_conservation` with zero density,
`ts n = n`, `dnorm = 1`, `T = 3`. -/
theorem alpha_color_map_conservation_witness :
    ((∀ i : ℕ, (0 : ℝ) ≤ 0) ∧ (∀ i : ℕ, ((i : ℝ)) ≤ ((i + 1 : ℕ) : ℝ)) ∧
      (0 : ℝ) ≤ 1) ∧
    ((∀ i : ℕ, (0 : ℝ) = 0) →
      alpha_map (integrate_timesteps (fun _ => 0) (fun n => (n : ℝ)) 1) 3 = 0 ∧
      color_map (fun _ => 1)
        (integrate_timesteps (fun _ => 0) (fun n => (n : ℝ)) 1) 3 = 0) :=
  ⟨⟨fun _ => le_refl 0, fun i => by exact_mod_cast Nat.le_succ i, by norm_num⟩,
    (alpha_color_map_conservation (fun _ => 1) (fun _ => 0)
      (fun n => (n : ℝ)) 1 3 (fun _ => le_refl 0)
      (fun i => by
        show ((i : ℕ) : ℝ) ≤ (((i + 1 : ℕ)) : ℝ)
        exact_mod_cast Nat.le_succ i) (by norm_num)).2.2.2⟩

/-- Helper: with nonnegative weights of positive total, the extended CDF
knot sequence is monotone. -/
theorem informed_cdf_mono (weights : ℕ → ℚ) (T : ℕ)
    (hw : ∀ i, 0 ≤ weights i) (hpos : 0 < weight_sum weights T) :
    Monotone (informed_cdf weights T) := by
  have hpmf : ∀ j, 0 ≤ informed_pmf weights T j := by
    intro j
    exact div_nonneg (hw j) (le_of_lt hpos)
  have hsumT : ∑ j ∈ Finset.range T, informed_pmf weights T j = 1 := by
    unfold informed_pmf
    rw [← Finset.sum_div]
    exact div_self (ne_of_gt hpos)
  have hsum_le : ∀ i, i ≤ T →
      ∑ j ∈ Finset.range i, informed_pmf weights T j ≤ 1 := by
    intro i hi
    rw [← hsumT]
    apply Finset.sum_le_sum_of_subset_of_nonneg
      (Finset.range_subset.mpr hi)
    intro j _ _
    exact hpmf j
  have hT : 1 ≤ T := by
    rcases Nat.eq_zero_or_pos T with h | h
    · rw [h] at hpos
      simp [weight_sum] at hpos
    · exact h
  apply monotone_nat_of_le_succ
  intro i
  cases i with
  | zero =>
    have hc0 : informed_cdf weights T 0 = -informed_eps := by
      simp [informed_cdf]
    have hc1 : informed_cdf weights T 1 =
        ∑ j ∈ Finset.range 1, informed_pmf weights T j := by
      unfold informed_cdf
      rw [if_neg one_ne_zero, if_pos hT]
    rw [hc0, hc1, Finset.sum_range_one]
    have := hpmf 0
    unfold informed_eps
    linarith
  | succ j =>
    by_cases hj2 : j + 1 + 1 ≤ T
    · have e1 : informed_cdf weights T (j + 1) =
          ∑ m ∈ Finset.range (j + 1), informed_pmf weights T m := by
        unfold informed_cdf
        rw [if_neg (Nat.succ_ne_zero j), if_pos (by omega)]
      have e2 : informed_cdf weights T (j + 1 + 1) =
          ∑ m ∈ Finset.range (j + 1 + 1), informed_pmf weights T m := by
        unfold informed_cdf
        rw [if_neg (Nat.succ_ne_zero (j + 1)), if_pos hj2]
      rw [e1, e2, Finset.sum_range_succ (informed_pmf weights T) (j + 1)]
      have := hpmf (j + 1)
      linarith
    · by_cases hj1 : j + 1 ≤ T
      · have e1 : informed_cdf weights T (j + 1) =
            ∑ m ∈ Finset.range (j + 1), informed_pmf weights T m := by
          unfold informed_cdf
          rw [if_neg (Nat.succ_ne_zero j), if_pos hj1]
        have e2 : informed_cdf weights T (j + 1 + 1) = 1 + informed_eps := by
          unfold informed_cdf
          rw [if_neg (Nat.succ_ne_zero (j + 1)), if_neg hj2]
        rw [e1, e2]
        have := hsum_le (j + 1) hj1
        unfold informed_eps
        linarith
      · have e1 : informed_cdf weights T (j + 1) = 1 + informed_eps := by
          unfold informed_cdf
          rw [if_neg (Nat.succ_ne_zero j), if_neg hj1]
        have e2 : informed_cdf weights T (j + 1 + 1) = 1 + informed_eps := by
          unfold informed_cdf
          rw [if_neg (Nat.succ_ne_zero (j + 1)), if_neg (by omega)]
        rw [e1, e2]

/-- Helper: the set of indices at which a monotone sequence is `≤ u` is an
initial segment of `Finset.range N`. -/
theorem filter_le_monotone_eq_range {f : ℕ → ℚ} (hf : Monotone f) (u : ℚ)
    (N : ℕ) :
    (Finset.range N).filter (fun i => f i ≤ u) =
      Finset.range (((Finset.range N).filter (fun i => f i ≤ u)).card) := by
  induction N with
  | zero => simp
  | succ n ih =>
    by_cases hn : f n ≤ u
    · have hall : ∀ i ∈ Finset.range (n + 1), f i ≤ u := by
        intro i hi
        have : i ≤ n := by
          have := Finset.mem_range.mp hi
          omega
        exact le_trans (hf this) hn
      rw [Finset.filter_true_of_mem hall, Finset.card_range]
    · have hsplit : (Finset.range (n + 1)).filter (fun i => f i ≤ u) =
          (Finset.range n).filter (fun i => f i ≤ u) := by
        rw [Finset.range_succ, Finset.filter_insert, if_neg hn]
      rw [hsplit]
      exact ih

/-- Helper: the first extended step knot is `tnear`. -/
theorem informed_knot_zero (ts : ℕ → ℚ) (tnear tfar : ℚ) (T : ℕ) :
    informed_knot ts tnear tfar T 0 = tnear := by
  simp [informed_knot]

/-- Helper: interior extended step knots are the input steps. -/
theorem informed_knot_mid (ts : ℕ → ℚ) (tnear tfar : ℚ) (T : ℕ) {i : ℕ}
    (h1 : 1 ≤ i) (h2 : i ≤ T) :
    informed_knot ts tnear tfar T i = ts (i - 1) := by
  unfold informed_knot
  rw [if_neg (by omega), if_pos h2]

/-- Helper: the last extended step knot is `tfar`. -/
theorem informed_knot_top (ts : ℕ → ℚ) (tnear tfar : ℚ) (T : ℕ) {i : ℕ}
    (h : T + 1 ≤ i) :
    informed_knot ts tnear tfar T i = tfar := by
  unfold informed_knot
  rw [if_neg (by omega), if_neg (by omega)]

/-- Helper: with the claim's preconditions strengthened by `0 ≤ tnear`,
every value the informed resampler can output for a uniform draw
`u ∈ [0,1)` lies in `[0, tfar]` (the `+eps` denominator guard scales the
exact inverse-CDF value of the located segment toward `0`). -/
theorem informed_val_in_zero_tfar (ts : ℕ → ℚ) (tnear tfar : ℚ)
    (weights : ℕ → ℚ) (T : ℕ) (u : ℚ) (h0 : 0 ≤ tnear)
    (hts : ∀ i, i + 1 < T → ts i ≤ ts (i + 1))
    (hlo : ∀ i, i < T → tnear ≤ ts i)
    (hhi : ∀ i, i < T → ts i ≤ tfar)
    (htt : tnear ≤ tfar)
    (hw : ∀ i, 0 ≤ weights i) (hpos : 0 < weight_sum weights T)
    (hu0 : 0 ≤ u) (hu1 : u < 1) :
    0 ≤ sample_ray_step_informed_val ts tnear tfar weights T u ∧
      sample_ray_step_informed_val ts tnear tfar weights T u ≤ tfar := by
  have hT : 1 ≤ T := by
    rcases Nat.eq_zero_or_pos T with h | h
    · rw [h] at hpos
      simp [weight_sum] at hpos
    · exact h
  have hmono := informed_cdf_mono weights T hw hpos
  have heps : (0 : ℚ) < informed_eps := by norm_num [informed_eps]
  set cdf := informed_cdf weights T with hcdf_def
  set k := searchsorted_right_count cdf (T + 2) u with hk_def
  have hfil : (Finset.range (T + 2)).filter (fun i => cdf i ≤ u) =
      Finset.range k :=
    filter_le_monotone_eq_range hmono u (T + 2)
  have hcdf0 : cdf 0 = -informed_eps := by
    simp [hcdf_def, informed_cdf]
  have hcdf_top : cdf (T + 1) = 1 + informed_eps := by
    simp only [hcdf_def, informed_cdf]
    rw [if_neg (by omega), if_neg (by omega)]
  have hk1 : 1 ≤ k := by
    have hmem : (0 : ℕ) ∈ (Finset.range (T + 2)).filter (fun i => cdf i ≤ u) := by
      apply Finset.mem_filter.mpr
      constructor
      · exact Finset.mem_range.mpr (by omega)
      · rw [hcdf0]
        linarith
    rw [hfil] at hmem
    have := Finset.mem_range.mp hmem
    omega
  have hkle : k ≤ T + 1 := by
    by_contra hgt
    push_neg at hgt
    have hmem : (T + 1) ∈ Finset.range k := Finset.mem_range.mpr (by omega)
    rw [← hfil] at hmem
    have := (Finset.mem_filter.mp hmem).2
    rw [hcdf_top] at this
    linarith
  have hlow_le : cdf (k - 1) ≤ u := by
    have hmem : (k - 1) ∈ Finset.range k := Finset.mem_range.mpr (by omega)
    rw [← hfil] at hmem
    exact (Finset.mem_filter.mp hmem).2
  have hup : u < cdf k := by
    have hnotmem : k ∉ Finset.range k := by simp
    rw [← hfil] at hnotmem
    have hmr : k ∈ Finset.range (T + 2) := Finset.mem_range.mpr (by omega)
    by_contra hle
    push_neg at hle
    exact hnotmem (Finset.mem_filter.mpr ⟨hmr, hle⟩)
  have hks : k - 1 + 1 = k := by omega
  set s := k - 1 with hs_def
  have hsT : s ≤ T := by omega
  set P := informed_knot ts tnear tfar T s with hP_def
  set Q := informed_knot ts tnear tfar T (s + 1) with hQ_def
  have hknot_in : ∀ i, i ≤ T + 1 →
      0 ≤ informed_knot ts tnear tfar T i ∧
      informed_knot ts tnear tfar T i ≤ tfar := by
    intro i hi
    rcases Nat.eq_zero_or_pos i with h0i | hposi
    · rw [h0i, informed_knot_zero]
      exact ⟨h0, htt⟩
    · by_cases hiT : i ≤ T
      · rw [informed_knot_mid ts tnear tfar T hposi hiT]
        exact ⟨le_trans h0 (hlo (i - 1) (by omega)), hhi (i - 1) (by omega)⟩
      · rw [informed_knot_top ts tnear tfar T (by omega)]
        exact ⟨le_trans h0 htt, le_refl _⟩
  have hPQ : P ≤ Q := by
    rw [hP_def, hQ_def]
    rcases Nat.eq_zero_or_pos s with hs0 | hspos
    · rw [hs0, informed_knot_zero,
        informed_knot_mid ts tnear tfar T (by omega) (by omega)]
      exact hlo (0 + 1 - 1) (by omega)
    · by_cases hsucc : s + 1 ≤ T
      · rw [informed_knot_mid ts tnear tfar T hspos (by omega),
          informed_knot_mid ts tnear tfar T (by omega) hsucc]
        have h := hts (s - 1) (by omega)
        have e : s - 1 + 1 = s := by omega
        rw [e] at h
        have e2 : s + 1 - 1 = s := by omega
        rw [e2]
        exact h
      · rw [informed_knot_mid ts tnear tfar T hspos hsT,
          informed_knot_top ts tnear tfar T (by omega)]
        exact hhi (s - 1) (by omega)
  have hP0 : 0 ≤ P := (hknot_in s (by omega)).1
  have hQf : Q ≤ tfar := (hknot_in (s + 1) (by omega)).2
  have hC0u : cdf s ≤ u := by
    rw [hs_def]
    exact hlow_le
  have huC1 : u < cdf (s + 1) := by
    rw [hs_def, hks]
    exact hup
  have hA : 0 < cdf (s + 1) - cdf s := by linarith
  have hval : sample_ray_step_informed_val ts tnear tfar weights T u =
      -(line_b ts tnear tfar T s * u + line_c ts tnear tfar weights T s) /
        (line_a weights T s + informed_eps) := by
    unfold sample_ray_step_informed_val
    rw [← hcdf_def, ← hk_def, ← hs_def]
  have hla : line_a weights T s = cdf (s + 1) - cdf s := by
    unfold line_a
    rw [hcdf_def]
  have hlb : line_b ts tnear tfar T s = P - Q := by
    unfold line_b
    rw [hP_def, hQ_def]
  have hlc : line_c ts tnear tfar weights T s = Q * cdf s - P * cdf (s + 1) := by
    unfold line_c
    rw [hP_def, hQ_def, hcdf_def]
  rw [hval, hla, hlb, hlc]
  have hden : 0 < cdf (s + 1) - cdf s + informed_eps := by linarith
  have hnum0 : 0 ≤ -((P - Q) * u + (Q * cdf s - P * cdf (s + 1))) := by
    nlinarith [mul_nonneg (sub_nonneg.mpr hPQ) (sub_nonneg.mpr hC0u),
      mul_nonneg hP0 (le_of_lt hA)]
  constructor
  · exact div_nonneg hnum0 (le_of_lt hden)
  · rw [div_le_iff₀ hden]
    have hQ0 : 0 ≤ Q := le_trans hP0 hPQ
    have hf0 : 0 ≤ tfar := le_trans hQ0 hQf
    nlinarith [mul_nonneg (sub_nonneg.mpr hPQ) (le_of_lt (sub_pos.mpr huC1)),
      mul_nonneg (le_of_lt hA) (sub_nonneg.mpr hQf),
      mul_nonneg (le_of_lt heps) hf0]

/-- Helper: peeling one index off a filtered-range count. -/
theorem count_range_succ (p : ℕ → Prop) [DecidablePred p] (n : ℕ) :
    ((Finset.range (n + 1)).filter p).card =
      ((Finset.range n).filter p).card + (if p n then 1 else 0) := by
  rw [Finset.range_succ, Finset.filter_insert]
  split_ifs with h
  · rw [Finset.card_insert_of_not_mem (by simp)]
  · rw [Nat.add_zero]

/-- Helper: closed form of a filtered count over `Finset.range 3`. -/
theorem count_range_three (p : ℕ → Prop) [DecidablePred p] :
    ((Finset.range 3).filter p).card =
      (if p 0 then 1 else 0) + (if p 1 then 1 else 0) +
        (if p 2 then 1 else 0) := by
  rw [show (3 : ℕ) = 2 + 1 from rfl, count_range_succ p 2,
    show (2 : ℕ) = 1 + 1 from rfl, count_range_succ p 1,
    show (1 : ℕ) = 0 + 1 from rfl, count_range_succ p 0,
    Finset.range_zero, Finset.filter_empty, Finset.card_empty]
  norm_num

/-- Helper: closed form of a filtered count over `Finset.range 4`. -/
theorem count_range_four (p : ℕ → Prop) [DecidablePred p] :
    ((Finset.range 4).filter p).card =
      (if p 0 then 1 else 0) + (if p 1 then 1 else 0) +
        (if p 2 then 1 else 0) + (if p 3 then 1 else 0) := by
  rw [show (4 : ℕ) = 3 + 1 from rfl, count_range_succ p 3,
    show (3 : ℕ) = 2 + 1 from rfl, count_range_succ p 2,
    show (2 : ℕ) = 1 + 1 from rfl, count_range_succ p 1,
    show (1 : ℕ) = 0 + 1 from rfl, count_range_succ p 0,
    Finset.range_zero, Finset.filter_empty, Finset.card_empty]
  norm_num

/-- Claim C3 (counterexample): at the concrete input `ts = (1, 2)`,
`tnear = 1/2`, `tfar = 3`, weights `(1 - 1e-7, 1e-7)` — sorted steps inside
the ray bounds, nonnegative weights of strictly positive sum, strictly
positive exponential draws — the second returned sample falls below
`tnear` and below the first returned sample, so the outputs are neither
within `[tnear, tfar]` nor ascending. -/
theorem informed_bounds_counterexample :
    (cex_ts 0 ≤ cex_ts 1) ∧
    ((1 : ℚ) / 2 ≤ cex_ts 0 ∧ cex_ts 1 ≤ 3) ∧
    (0 ≤ cex_weights 0 ∧ 0 ≤ cex_weights 1 ∧ 0 < weight_sum cex_weights 2) ∧
    (0 < cex_expdraws 0 ∧ 0 < cex_expdraws 1 ∧ 0 < cex_expdraws 2) ∧
    sample_ray_step_informed cex_ts (1 / 2) 3 cex_weights 2 2 cex_expdraws 1 <
      1 / 2 ∧
    sample_ray_step_informed cex_ts (1 / 2) 3 cex_weights 2 2 cex_expdraws 1 <
      sample_ray_step_informed cex_ts (1 / 2) 3 cex_weights 2 2
        cex_expdraws 0 := by
  have hwsum : weight_sum cex_weights 2 = 1 := by
    unfold weight_sum
    rw [Finset.sum_range_succ, Finset.sum_range_one]
    norm_num [cex_weights]
  have hu0 : sortedUniform cex_expdraws 2 0 = 1 / 2 := by
    unfold sortedUniform
    rw [Finset.sum_range_one, Finset.sum_range_succ, Finset.sum_range_succ,
      Finset.sum_range_one]
    norm_num [cex_expdraws]
  have hu1 : sortedUniform cex_expdraws 2 1 = 1 - 1 / 20000000 := by
    unfold sortedUniform
    rw [Finset.sum_range_succ, Finset.sum_range_one, Finset.sum_range_succ,
      Finset.sum_range_succ, Finset.sum_range_one]
    norm_num [cex_expdraws]
  have hc0 : informed_cdf cex_weights 2 0 = -(1 / 100000) := by
    norm_num [informed_cdf, informed_eps]
  have hc1 : informed_cdf cex_weights 2 1 = 1 - 1 / 10000000 := by
    unfold informed_cdf informed_pmf
    rw [if_neg one_ne_zero, if_pos (by norm_num : (1 : ℕ) ≤ 2),
      Finset.sum_range_one, hwsum]
    norm_num [cex_weights]
  have hc2 : informed_cdf cex_weights 2 2 = 1 := by
    unfold informed_cdf informed_pmf
    rw [if_neg (by norm_num : ¬(2 : ℕ) = 0), if_pos (le_refl 2),
      Finset.sum_range_succ, Finset.sum_range_one, hwsum]
    norm_num [cex_weights]
  have hc3 : informed_cdf cex_weights 2 3 = 1 + 1 / 100000 := by
    unfold informed_cdf
    rw [if_neg (by norm_num : ¬(3 : ℕ) = 0), if_neg (by norm_num)]
    norm_num [informed_eps]
  have hk1 : informed_knot cex_ts (1 / 2) 3 2 1 = 1 := by
    rw [informed_knot_mid cex_ts (1 / 2) 3 2 (le_refl 1) (by norm_num)]
    norm_num [cex_ts]
  have hk2 : informed_knot cex_ts (1 / 2) 3 2 2 = 2 := by
    rw [informed_knot_mid cex_ts (1 / 2) 3 2 (by norm_num) (le_refl 2)]
    norm_num [cex_ts]
  have hk0 : informed_knot cex_ts (1 / 2) 3 2 0 = 1 / 2 :=
    informed_knot_zero cex_ts (1 / 2) 3 2
  have hcnt1 : searchsorted_right_count (informed_cdf cex_weights 2) (2 + 2)
      (1 - 1 / 20000000) = 2 := by
    unfold searchsorted_right_count
    rw [show (2 : ℕ) + 2 = 4 from rfl, count_range_four]
    rw [hc0, hc1, hc2, hc3]
    norm_num
  have hcnt0 : searchsorted_right_count (informed_cdf cex_weights 2) (2 + 2)
      (1 / 2) = 1 := by
    unfold searchsorted_right_count
    rw [show (2 : ℕ) + 2 = 4 from rfl, count_range_four]
    rw [hc0, hc1, hc2, hc3]
    norm_num
  have hval1 : sample_ray_step_informed cex_ts (1 / 2) 3 cex_weights 2 2
      cex_expdraws 1 = 3 / 202 := by
    unfold sample_ray_step_informed
    rw [hu1]
    unfold sample_ray_step_informed_val
    rw [hcnt1, (by norm_num : (2 : ℕ) - 1 = 1)]
    unfold line_a line_b line_c
    rw [(by norm_num : (1 : ℕ) + 1 = 2), hk1, hk2, hc1, hc2]
    norm_num [informed_eps]
  have hval0 : sample_ray_step_informed cex_ts (1 / 2) 3 cex_weights 2 2
      cex_expdraws 0 = 15000199 / 20000398 := by
    unfold sample_ray_step_informed
    rw [hu0]
    unfold sample_ray_step_informed_val
    rw [hcnt0, (by norm_num : (1 : ℕ) - 1 = 0)]
    unfold line_a line_b line_c
    rw [(by norm_num : (0 : ℕ) + 1 = 1), hk0, hk1, hc0, hc1]
    norm_num [informed_eps]
  refine ⟨by norm_num [cex_ts], ⟨by norm_num [cex_ts], by norm_num [cex_ts]⟩,
    ⟨by norm_num [cex_weights], by norm_num [cex_weights], by rw [hwsum]; norm_num⟩,
    ⟨by norm_num [cex_expdraws], by norm_num [cex_expdraws],
      by norm_num [cex_expdraws]⟩, ?_, ?_⟩
  · rw [hval1]
    norm_num
  · rw [hval1, hval0]
    norm_num

/-- Claim C3 (amended): with the claim's preconditions and `0 ≤ tnear`,
every sample returned by `sample_ray_step_informed` lies in `[0, tfar]`
(not `[tnear, tfar]`, and not necessarily ascending: the `+eps` guard on
the line-equation denominator scales the exact inverse-CDF value, which
does lie in `[tnear, tfar]`, by `a/(a+eps)` for segment mass `a`). -/
theorem informed_samples_in_zero_tfar (ts : ℕ → ℚ) (tnear tfar : ℚ)
    (weights : ℕ → ℚ) (T n_samples : ℕ) (e : ℕ → ℚ) (h0 : 0 ≤ tnear)
    (hts : ∀ i, i + 1 < T → ts i ≤ ts (i + 1))
    (hlo : ∀ i, i < T → tnear ≤ ts i)
    (hhi : ∀ i, i < T → ts i ≤ tfar)
    (htt : tnear ≤ tfar)
    (hw : ∀ i, 0 ≤ weights i) (hpos : 0 < weight_sum weights T)
    (he : ∀ j, 0 < e j) :
    ∀ i, i < n_samples →
      0 ≤ sample_ray_step_informed ts tnear tfar weights T n_samples e i ∧
      sample_ray_step_informed ts tnear tfar weights T n_samples e i ≤ tfar := by
  intro i hi
  have hden : (0 : ℚ) < ∑ j ∈ Finset.range (n_samples + 1), e j :=
    Finset.sum_pos (fun j _ => he j) (by simp)
  have hu0 : 0 ≤ sortedUniform e n_samples i :=
    div_nonneg (Finset.sum_nonneg (fun j _ => le_of_lt (he j)))
      (le_of_lt hden)
  have hu1 : sortedUniform e n_samples i < 1 := by
    unfold sortedUniform
    rw [div_lt_one hden]
    exact sum_range_lt_of_pos he (by omega)
  exact informed_val_in_zero_tfar ts tnear tfar weights T
    (sortedUniform e n_samples i) h0 hts hlo hhi htt hw hpos hu0 hu1

/-- Closed witness for `informed_samples_in_zero_tfar`: one step at `1`
with unit weight, `tnear = 0`, `tfar = 2`, unit exponential draws. -/
theorem informed_samples_in_zero_tfar_witness :
    ((0 : ℚ) ≤ 0 ∧ (0 : ℚ) ≤ 2 ∧ 0 < weight_sum (fun _ => (1 : ℚ)) 1 ∧
      (∀ j : ℕ, (0 : ℚ) < 1)) ∧
    (0 ≤ sample_ray_step_informed (fun _ => (1 : ℚ)) 0 2 (fun _ => 1) 1 1
        (fun _ => 1) 0 ∧
      sample_ray_step_informed (fun _ => (1 : ℚ)) 0 2 (fun _ => 1) 1 1
        (fun _ => 1) 0 ≤ 2) :=
  ⟨⟨le_refl 0, by norm_num, by norm_num [weight_sum], fun _ => by norm_num⟩,
    informed_samples_in_zero_tfar (fun _ => 1) 0 2 (fun _ => 1) 1 1
      (fun _ => 1) (le_refl 0) (fun i hi => by omega)
      (fun i _ => by norm_num) (fun i _ => by norm_num) (by norm_num)
      (fun _ => by norm_num) (by norm_num [weight_sum])
      (fun _ => by norm_num) 0 (by norm_num)⟩

/-- Claim C4: at an all-zero-weights ray (weight sum zero) the embedded
resampler has no fail-fast path: it divides by the zero sum (in this exact
field model `x / 0 = 0`; in the float code `0 / 0` is NaN) and returns an
ordinary value, never raising a degenerate-distribution error. -/
theorem informed_zero_weights_no_guard :
    weight_sum (fun _ => (0 : ℚ)) 1 = 0 ∧
    sample_ray_step_informed_val (fun _ => (1 : ℚ)) 0 2 (fun _ => (0 : ℚ)) 1
      (1 / 2) = 150001 / 100002 := by
  have hwsum : weight_sum (fun _ => (0 : ℚ)) 1 = 0 := by
    simp [weight_sum]
  have hc0 : informed_cdf (fun _ => (0 : ℚ)) 1 0 = -(1 / 100000) := by
    norm_num [informed_cdf, informed_eps]
  have hc1 : informed_cdf (fun _ => (0 : ℚ)) 1 1 = 0 := by
    unfold informed_cdf informed_pmf
    rw [if_neg one_ne_zero, if_pos (le_refl 1), Finset.sum_range_one]
    simp
  have hc2 : informed_cdf (fun _ => (0 : ℚ)) 1 2 = 1 + 1 / 100000 := by
    unfold informed_cdf
    rw [if_neg (by norm_num : ¬(2 : ℕ) = 0), if_neg (by norm_num)]
    norm_num [informed_eps]
  have hk1 : informed_knot (fun _ => (1 : ℚ)) 0 2 1 1 = 1 := by
    rw [informed_knot_mid (fun _ => (1 : ℚ)) 0 2 1 (le_refl 1) (le_refl 1)]
  have hk2 : informed_knot (fun _ => (1 : ℚ)) 0 2 1 2 = 2 :=
    informed_knot_top (fun _ => (1 : ℚ)) 0 2 1 (by norm_num)
  have hcnt : searchsorted_right_count (informed_cdf (fun _ => (0 : ℚ)) 1)
      (1 + 2) (1 / 2) = 2 := by
    unfold searchsorted_right_count
    rw [show (1 : ℕ) + 2 = 3 from rfl, count_range_three]
    rw [hc0, hc1, hc2]
    norm_num
  refine ⟨hwsum, ?_⟩
  unfold sample_ray_step_informed_val
  rw [hcnt, show (2 : ℕ) - 1 = 1 from rfl]
  unfold line_a line_b line_c
  rw [show (1 : ℕ) + 1 = 2 from rfl, hk1, hk2, hc1, hc2]
  norm_num [informed_eps]

/-- Helper: `trace_uv` is computed ray by ray — an inactive ray yields the
default `0`, an active ray the rendered value of its clipped ray. -/
theorem trace_uv_cons (render : Ray → ℚ) (box : AABB) (x : Ray)
    (rays : List Ray) :
    trace_uv render box (x :: rays) =
      (if active_mask (intersect_aabb x box) then
        render (intersect_aabb x box) else 0) :: trace_uv render box rays := by
  unfold trace_uv
  simp only [List.map_cons, List.filter_cons]
  cases h : active_mask (intersect_aabb x box) with
  | true => simp [h, scatter_active]
  | false => simp [h, scatter_active]

/-- Helper: `trace_uv` distributes over list concatenation. -/
theorem trace_uv_append (render : Ray → ℚ) (box : AABB)
    (xs ys : List Ray) :
    trace_uv render box (xs ++ ys) =
      trace_uv render box xs ++ trace_uv render box ys := by
  induction xs with
  | nil => rfl
  | cons x xs ih =>
    rw [List.cons_append, trace_uv_cons, trace_uv_cons, ih, List.cons_append]

/-- Claim C6 (amended): rendering by iterating fixed-size sequential
chunks through `trace_uv` and concatenating the per-chunk results in
row-major order (`trace_maps`) gives exactly the result of one unchunked
`trace_uv` call, for every chunk size, *provided* each ray's stratified
draws are a function of the ray itself (a per-ray render composite fixed
across both runs).  This is the compaction/scatter/reassembly content of
the claim.  With the code's actual single bin-major RNG fill over the
compacted batch, a fixed seed hands the same ray different draws in the
chunked and unchunked runs (see `trace_maps_stream_ne_trace_uv_stream`),
so the two full-image results agree only statistically, not exactly. -/
theorem trace_maps_eq_trace_uv (render : Ray → ℚ) (box : AABB)
    (rays : List Ray) (m : ℕ) :
    trace_maps render box rays m = trace_uv render box rays := by
  unfold trace_maps
  suffices H : ∀ n (l : List Ray), l.length ≤ n →
      ((chunk_list m l).map (trace_uv render box)).flatten =
        trace_uv render box l from H rays.length rays (le_refl _)
  intro n
  induction n with
  | zero =>
    intro l hl
    have hnil : l = [] := List.eq_nil_of_length_eq_zero (by omega)
    rw [hnil, chunk_list]
    rfl
  | succ n ih =>
    intro l hl
    cases l with
    | nil =>
      rw [chunk_list]
      rfl
    | cons x xs =>
      rw [chunk_list, List.map_cons, List.flatten_cons,
        ih ((x :: xs).drop (m + 1)) (by simp [List.length_drop] at hl ⊢; omega),
        ← trace_uv_append, List.take_append_drop]

/-- Claim C7: in `trace_uv`, a ray whose AABB-clipped interval is empty
keeps the default `0` at its position; the per-ray render composite (the
field query) influences only active rays, so two render functions agreeing
on active rays give identical outputs; and a batch with no active rays
returns the all-default (zero) map. -/
theorem trace_uv_inactive_defaults (render : Ray → ℚ) (box : AABB)
    (rays : List Ray) :
    (∀ i (hi : i < rays.length),
      active_mask (intersect_aabb (rays.get ⟨i, hi⟩) box) = false →
        (trace_uv render box rays).get? i = some 0) ∧
    (∀ render' : Ray → ℚ,
      (∀ r : Ray, active_mask r = true → render r = render' r) →
        trace_uv render box rays = trace_uv render' box rays) ∧
    ((∀ r ∈ rays, active_mask (intersect_aabb r box) = false) →
      trace_uv render box rays = List.replicate rays.length 0) := by
  refine ⟨?_, ?_, ?_⟩
  · intro i
    induction rays generalizing i with
    | nil => intro hi; simp at hi
    | cons x xs ih =>
      intro hi hmask
      rw [trace_uv_cons]
      cases i with
      | zero =>
        simp only [List.get] at hmask
        rw [if_neg (by rw [hmask]; exact Bool.false_ne_true)]
        rfl
      | succ j =>
        simp only [List.get] at hmask
        have hj : j < xs.length := by
          simp only [List.length_cons] at hi
          omega
        exact ih j hj hmask
  · intro render' hagree
    induction rays with
    | nil => rfl
    | cons x xs ih =>
      rw [trace_uv_cons, trace_uv_cons, ih]
      cases h : active_mask (intersect_aabb x box) with
      | true => rw [if_pos rfl, if_pos rfl, hagree _ h]
      | false => rw [if_neg (by simp), if_neg (by simp)]
  · intro hall
    induction rays with
    | nil => rfl
    | cons x xs ih =>
      rw [trace_uv_cons,
        if_neg (by rw [hall x (by simp)]; exact Bool.false_ne_true),
        List.length_cons, List.replicate_succ,
        ih (fun r hr => hall r (by simp [hr]))]

/-- Closed witness for `trace_uv_inactive_defaults`: a ray with zero
direction and origin outside the unit box is clipped to an empty interval
and its output entry stays `0`, for an arbitrary render function. -/
theorem trace_uv_inactive_defaults_witness :
    active_mask (intersect_aabb outside_ray unit_box) = false ∧
    (trace_uv (fun _ => 5) unit_box [outside_ray]).get? 0 = some 0 := by
  have hmask : active_mask (intersect_aabb outside_ray unit_box) = false := by
    unfold active_mask intersect_aabb clip_axis outside_ray unit_box
    norm_num
  exact ⟨hmask,
    (trace_uv_inactive_defaults (fun _ => 5) unit_box [outside_ray]).1 0
      (by norm_num) hmask⟩

/-- Helper: appending distinct single elements is injective. -/
theorem append_singleton_inj {l1 l2 : List ℕ} {a b : ℕ} :
    l1 ++ [a] = l2 ++ [b] ↔ l1 = l2 ∧ a = b := by
  constructor
  · intro h
    have hp := List.append_inj' h rfl
    exact ⟨hp.1, by simpa using hp.2⟩
  · rintro ⟨rfl, rfl⟩
    rfl

/-- Claim C9: on inputs of the documented shapes — `ts : (T, B…, 1)`,
`tnear tfar : (Bn…, 1)/(Bf…, 1)`, `weights : (Tw, Bw…, 1)` — any mismatch
of the leading batch dimensions makes the call fail (`none`, the
`RuntimeError` of `torch.cat`/`torch.stack`), never a silently broadcast
result; and with matching batch dimensions (and matching step counts) it
returns the shape `(n_samples, B…, 1)`. -/
theorem informed_shape_mismatch_rejected (B Bn Bf Bw : List ℕ)
    (T Tw n_samples : ℕ) :
    (¬ (Bn = B ∧ Bf = B ∧ Bw = B) →
      sample_ray_step_informed_shapes (T :: B ++ [1]) (Bn ++ [1])
        (Bf ++ [1]) (Tw :: Bw ++ [1]) n_samples = none) ∧
    (Bn = B → Bf = B → Bw = B → Tw = T →
      sample_ray_step_informed_shapes (T :: B ++ [1]) (Bn ++ [1])
        (Bf ++ [1]) (Tw :: Bw ++ [1]) n_samples =
        some (n_samples :: B ++ [1])) := by
  have hts : moveFirstToLastShape (squeezeLastShape (T :: B ++ [1])) =
      B ++ [T] := by
    unfold squeezeLastShape
    rw [List.getLast?_concat, if_pos rfl, List.dropLast_concat]
    unfold moveFirstToLastShape
    simp
  have hw : moveFirstToLastShape (squeezeLastShape (Tw :: Bw ++ [1])) =
      Bw ++ [Tw] := by
    unfold squeezeLastShape
    rw [List.getLast?_concat, if_pos rfl, List.dropLast_concat]
    unfold moveFirstToLastShape
    simp
  have hdln : (Bn ++ [1]).dropLast = Bn := List.dropLast_concat
  have hdlf : (Bf ++ [1]).dropLast = Bf := List.dropLast_concat
  have hdlB : (B ++ [T]).dropLast = B := List.dropLast_concat
  have hdlw : (Bw ++ [Tw]).dropLast = Bw := List.dropLast_concat
  have hgln : (Bn ++ [1]).getLastD 0 = 1 := List.getLastD_concat _ _ _
  have hglf : (Bf ++ [1]).getLastD 0 = 1 := List.getLastD_concat _ _ _
  have hglB : (B ++ [T]).getLastD 0 = T := List.getLastD_concat _ _ _
  have hglw : (Bw ++ [Tw]).getLastD 0 = Tw := List.getLastD_concat _ _ _
  unfold sample_ray_step_informed_shapes
  rw [hts, hw, hdln, hdlf, hdlB, hdlw, hgln, hglf, hglB, hglw]
  constructor
  · intro hne
    split_ifs with h1 h2
    · exfalso
      obtain ⟨hBw, _⟩ := append_singleton_inj.mp h2
      exact hne ⟨h1.1, h1.2, hBw⟩
    · rfl
    · rfl
  · intro e1 e2 e3 e4
    subst e1
    subst e2
    subst e3
    subst e4
    rw [if_pos ⟨rfl, rfl⟩,
      if_pos (by rw [show Tw + 2 = 1 + Tw + 1 by omega])]
    simp

/-- Closed witness for `informed_shape_mismatch_rejected`: a `(4,2,1)`
step tensor with a `(3,1)` tnear is rejected, and matching shapes yield
`(5,2,1)`. -/
theorem informed_shape_mismatch_rejected_witness :
    (¬ (([3] : List ℕ) = [2] ∧ ([2] : List ℕ) = [2] ∧
        ([2] : List ℕ) = [2])) ∧
    sample_ray_step_informed_shapes (4 :: [2] ++ [1]) ([3] ++ [1])
      ([2] ++ [1]) (4 :: [2] ++ [1]) 5 = none :=
  ⟨by decide,
    (informed_shape_mismatch_rejected [2] [3] [2] [2] 4 4 5).1 (by decide)⟩

/-- Claim C6 (counterexample): with the global RNG stream explicit and a
fixed seed (both runs read the stream `s n = n/10` from position 0),
`n_bins = 2`, chunk size 1, and two active rays: the unchunked run fills
one `(2, 2, 1)` tensor, handing ray 1 the draw at stream position 1, while
the chunked run fills two `(2, 1, 1)` tensors, handing ray 1 the draw at
stream position 2 — so with a draw-sensitive render composite the chunked
image `[0, 1/5]` differs from the unchunked image `[0, 1/10]`. -/
theorem trace_maps_stream_ne_trace_uv_stream :
    active_mask (intersect_aabb inside_ray unit_box) = true ∧
    trace_uv_stream (fun _ draws => draws 0) unit_box
      (fun n => (n : ℚ) / 10) 0 [inside_ray, inside_ray] = [0, 1 / 10] ∧
    trace_maps_stream (fun _ draws => draws 0) unit_box 2
      (fun n => (n : ℚ) / 10) 0 [inside_ray, inside_ray] 0 = [0, 1 / 5] ∧
    trace_maps_stream (fun _ draws => draws 0) unit_box 2
      (fun n => (n : ℚ) / 10) 0 [inside_ray, inside_ray] 0 ≠
      trace_uv_stream (fun _ draws => draws 0) unit_box
        (fun n => (n : ℚ) / 10) 0 [inside_ray, inside_ray] := by
  have hm : active_mask (intersect_aabb inside_ray unit_box) = true := by
    unfold active_mask intersect_aabb clip_axis inside_ray unit_box
    simp only [decide_eq_true_eq]
    norm_num [max_def, min_def, Fin.ext_iff]
  have h1 : trace_uv_stream (fun _ draws => draws 0) unit_box
      (fun n => (n : ℚ) / 10) 0 [inside_ray, inside_ray] = [0, 1 / 10] := by
    unfold trace_uv_stream
    simp only [List.map_cons, List.map_nil, hm, List.filter_cons, if_pos,
      List.filter_nil, List.length_cons, List.length_nil]
    simp [render_actives, stratified_draw, scatter_active]
  have hchunk : chunk_list 0 [inside_ray, inside_ray] =
      [[inside_ray], [inside_ray]] := by
    rw [chunk_list]
    norm_num
    rw [chunk_list]
    norm_num
    rw [chunk_list]
  have hcons : rng_consumed unit_box 2 [inside_ray] = 2 := by
    unfold rng_consumed
    simp [hm]
  have hone : ∀ offset : ℕ, trace_uv_stream (fun _ draws => draws 0)
      unit_box (fun n => (n : ℚ) / 10) offset [inside_ray] =
      [(offset : ℚ) / 10] := by
    intro offset
    unfold trace_uv_stream
    simp only [List.map_cons, List.map_nil, hm, List.filter_cons, if_pos,
      List.filter_nil, List.length_cons, List.length_nil]
    simp [render_actives, stratified_draw, scatter_active]
  have h2 : trace_maps_stream (fun _ draws => draws 0) unit_box 2
      (fun n => (n : ℚ) / 10) 0 [inside_ray, inside_ray] 0 = [0, 1 / 5] := by
    unfold trace_maps_stream
    rw [hchunk]
    rw [trace_chunks_stream, trace_chunks_stream, trace_chunks_stream,
      hone 0, hcons, hone (0 + 2)]
    norm_num
  refine ⟨hm, h1, h2, ?_⟩
  rw [h1, h2]
  intro hcontra
  have := (List.cons.injEq _ _ _ _).mp hcontra
  have h5 := (List.cons.injEq _ _ _ _).mp this.2
  norm_num at h5

end TorchNGP
